import Mathlib

/-!
Verification of the CI-validation core of the `salt-modules` repository.

The heart of the repository is `modules/runners/citools.py`:

* `_determine_pillar_changes` — a recursive diff of two rendered pillar
  dictionaries, classifying each key as `"added"`, `"removed"`,
  `"modified"` or `"unchanged"`;
* `_remove_unchanged_pillar` — an in-place prune that deletes keys whose
  value is the string `"unchanged"` and dictionary children that become
  empty after pruning;
* `validate_pillar_pr` / `validate_state_pr` — per-minion orchestration
  of fetch + diff (+ prune for the pillar case);
* `modules/runners/vault.py`'s `read_secret`.

Python values flowing through these functions are either dictionaries
(string keys, insertion-ordered, unique) or opaque scalars.  We embed
them as `PValue`: a scalar is `.str`, a dictionary is `.dict` over an
association list that records insertion order.  Fallible Python code
(functions that can raise) is embedded in `Except Unit`; every distinct
Python exception is collapsed to `.error ()` because callers of these
runners observe only "the call raised".

In particular `_determine_pillar_changes(target, incoming)` raises
whenever `target` is not a dict (`target.keys()` fails), and also when
`target` is a dict but `incoming` is not: in that case either the
membership test `key not in incoming`, the indexing `incoming[key]`, or
the second loop's `incoming.keys()` raises (`TypeError` /
`AttributeError`), on every possible input.  The embedding therefore
returns `.error ()` exactly when either argument is a non-dict.
-/

/-- A rendered Python value: an opaque scalar or a string-keyed dict
(association list in insertion order). -/
inductive PValue where
  | str : String → PValue
  | dict : List (String × PValue) → PValue
deriving Repr

/-- Lookup of a key in a Python dict (first occurrence wins; a real
Python dict has unique keys, so this is exact). -/
def dlookup {α : Type} : List (String × α) → String → Option α
  | [], _ => none
  | (k, v) :: rest, key => if k = key then some v else dlookup rest key

/-- The value stored for a key that is present only in `incoming`
(`citools.py` lines 192-199): a dict contributes its immediate
sub-keys each mapped to `"added"`; a scalar contributes `"added"`. -/
def addEntry : PValue → PValue
  | .dict dl => .dict (dl.map (fun p => (p.1, .str "added")))
  | .str _ => .str "added"

/-- The second loop of `_determine_pillar_changes` (lines 192-199):
keys of `incoming` absent from `target` are appended, in `incoming`
order, with `addEntry` values. -/
def loopIncoming (t : List (String × PValue)) : List (String × PValue) → List (String × PValue)
  | [] => []
  | (k, v) :: rest =>
      if (dlookup t k).isSome then loopIncoming t rest
      else (k, addEntry v) :: loopIncoming t rest

/-- Python `target[key] != incoming[key]` for a scalar `target[key]`
(lines 186-190): a scalar differs from every dict, and scalars compare
by value. -/
def leafCompare (s : String) : PValue → String
  | .str s2 => if s2 = s then "unchanged" else "modified"
  | .dict _ => "modified"

mutual
/-- Embedding of `_determine_pillar_changes(target, incoming)`
(`citools.py` lines 169-201).  Defined for two dicts; any non-dict
argument makes the Python function raise (see module docstring), hence
`.error ()`. -/
def determinePillarChanges : PValue → PValue → Except Unit PValue
  | .dict t, .dict i =>
      match loopTarget t (.dict i) with
      | .error e => .error e
      | .ok c1 => .ok (.dict (c1 ++ loopIncoming t i))
  | _, _ => .error ()

/-- The classification computed for one key `k` of `target` whose value
is `tv` (lines 172-190): absent from `incoming` → `"removed"`; present
with `tv` a dict → recursive diff (which raises when the incoming side
is a scalar); present with `tv` a scalar → equality test. -/
def entryResult (i : PValue) (k : String) (tv : PValue) : Except Unit PValue :=
  match i with
  | .str _ => .error ()
  | .dict il =>
    match dlookup il k with
    | none => .ok (.str "removed")
    | some iv =>
        match tv with
        | .dict tl => determinePillarChanges (.dict tl) iv
        | .str s => .ok (.str (leafCompare s iv))

/-- The first loop of `_determine_pillar_changes` (lines 171-190): each
key of `target`, in order, is assigned its classification; a raise in
any iteration aborts the whole call. -/
def loopTarget : List (String × PValue) → PValue → Except Unit (List (String × PValue))
  | [], _ => .ok []
  | (k, v) :: rest, i =>
      match entryResult i k v with
      | .error e => .error e
      | .ok r =>
        match loopTarget rest i with
        | .error e => .error e
        | .ok tail => .ok ((k, r) :: tail)
end

/-- Embedding of `_remove_unchanged_pillar`'s effect on a dict's entry
list (`citools.py` lines 217-227): dict children are pruned recursively
and deleted when the pruned child is empty; scalar values equal to
`"unchanged"` are deleted; everything else is kept in order. -/
def pruneList : List (String × PValue) → List (String × PValue)
  | [] => []
  | (k, v) :: rest =>
      match v with
      | .dict dl =>
          if (pruneList dl).isEmpty then pruneList rest
          else (k, .dict (pruneList dl)) :: pruneList rest
      | .str s => if s = "unchanged" then pruneList rest else (k, .str s) :: pruneList rest

/-- Embedding of `_remove_unchanged_pillar(data)` (lines 204-228): the
value of `data` after the call, which is also the returned value.  A
non-dict argument is returned untouched. -/
def removeUnchanged : PValue → PValue
  | .str s => .str s
  | .dict l => .dict (pruneList l)

/-- Python dict assignment `m[k] = v`: replaces in place when `k` is
present, appends otherwise. -/
def dinsert {α : Type} : List (String × α) → String → α → List (String × α)
  | [], k, v => [(k, v)]
  | (k', v') :: rest, k, v =>
      if k' = k then (k', v) :: rest else (k', v') :: dinsert rest k v

/-- The fetch loop of `validate_pillar_pr` (`citools.py` lines 331-336):
for each minion id in order, fetch the target-environment pillar then
the incoming-environment pillar (each fetch may raise), and assign both
into the accumulated outer dicts. -/
def fetchPhase (fetch : String → String → Except Unit PValue) (tEnv iEnv : String) :
    List String → List (String × PValue) → List (String × PValue) →
    Except Unit (List (String × PValue) × List (String × PValue))
  | [], tm, im => .ok (tm, im)
  | id :: rest, tm, im =>
      match fetch id tEnv with
      | .error e => .error e
      | .ok tc =>
          match fetch id iEnv with
          | .error e => .error e
          | .ok ic => fetchPhase fetch tEnv iEnv rest (dinsert tm id tc) (dinsert im id ic)

/-- Embedding of `validate_pillar_pr(minion_ids, target_pillarenv,
incoming_pillarenv)` (lines 309-340), with `get_pillar_for_env`
abstracted as the capability `fetch`: build the outer per-minion dicts,
diff them, prune, return.  Any raise propagates. -/
def validatePillarPr (minionIds : List String) (fetch : String → String → Except Unit PValue)
    (tEnv iEnv : String) : Except Unit PValue :=
  match fetchPhase fetch tEnv iEnv minionIds [] [] with
  | .error e => .error e
  | .ok (tm, im) =>
      match determinePillarChanges (.dict tm) (.dict im) with
      | .error e => .error e
      | .ok c => .ok (removeUnchanged c)

/-- The per-minion result object of `validate_state_pr`: a dict with
optional `"added"` and `"removed"` keys, each holding a set of state
ids. -/
structure LowstateDiff where
  added : Option (Finset String)
  removed : Option (Finset String)
deriving DecidableEq

/-- The set comparison of `validate_state_pr` (`citools.py` lines
353-362): `added = set(incoming) - set(target)`, `removed =
set(target) - set(incoming)`; each key is stored only when
`len(...) > 0`. -/
def lowstateDiff (target incoming : List String) : LowstateDiff :=
  { added :=
      if 0 < (incoming.toFinset \ target.toFinset).card then
        some (incoming.toFinset \ target.toFinset)
      else none,
    removed :=
      if 0 < (target.toFinset \ incoming.toFinset).card then
        some (target.toFinset \ incoming.toFinset)
      else none }

/-- The per-minion loop of `validate_state_pr` (lines 349-362): fetch
both lowstates (each fetch may raise) and assign the set diff under the
minion's key. -/
def statePhase (fetch : String → String → Except Unit (List String)) (tEnv iEnv : String) :
    List String → List (String × LowstateDiff) → Except Unit (List (String × LowstateDiff))
  | [], acc => .ok acc
  | id :: rest, acc =>
      match fetch id tEnv with
      | .error e => .error e
      | .ok tc =>
          match fetch id iEnv with
          | .error e => .error e
          | .ok ic => statePhase fetch tEnv iEnv rest (dinsert acc id (lowstateDiff tc ic))

/-- Embedding of `validate_state_pr(minion_ids, target_saltenv,
incoming_saltenv)` (lines 343-364), with `get_lowstate_for_env`
abstracted as `fetch`. -/
def validateStatePr (minionIds : List String) (fetch : String → String → Except Unit (List String))
    (tEnv iEnv : String) : Except Unit (List (String × LowstateDiff)) :=
  statePhase fetch tEnv iEnv minionIds []

/-- The Vault client as `read_secret` uses it: an authentication state
and the KV read capability (mount point, path). -/
structure VaultClient where
  authenticated : Bool
  kvRead : String → String → PValue

/-- Embedding of `vault.py`'s `read_secret(path, key=None)` (lines
35-55): when the client is authenticated, the full response of
`kv.read_secret(path=path, mount_point='kv')` is returned; otherwise
the local variable `response` was never bound and the `return response`
line raises `NameError`.  The `key` parameter is bound but never read
(the body carries only a TODO for it). -/
def read_secret (client : VaultClient) (path : String) (key : Option String) :
    Except Unit PValue :=
  if client.authenticated then .ok (client.kvRead "kv" path) else .error ()

/-- Field names of a dict's entry list, in order. -/
def keysOf {α : Type} (l : List (String × α)) : List String := l.map Prod.fst

/-- No duplicates in a key list (the invariant every real Python dict
satisfies). -/
def nodupStr : List String → Bool
  | [] => true
  | k :: rest => !(rest.contains k) && nodupStr rest

mutual
/-- Well-formed embedded value: every dict reachable in it has unique
keys.  Every value produced by rendering an actual Python dict tree is
well-formed. -/
def wfP : PValue → Bool
  | .str _ => true
  | .dict l => nodupStr (keysOf l) && wfL l

/-- Well-formedness of each value in an entry list. -/
def wfL : List (String × PValue) → Bool
  | [] => true
  | (_, v) :: rest => wfP v && wfL rest
end

mutual
/-- Whether a field name occurs anywhere (any depth) in a value. -/
def keyOccurs (k : String) : PValue → Bool
  | .str _ => false
  | .dict l => keyOccursL k l

/-- Whether a field name occurs anywhere in an entry list. -/
def keyOccursL (k : String) : List (String × PValue) → Bool
  | [] => false
  | (k', v) :: rest => k' == k || keyOccurs k v || keyOccursL k rest
end

/-- Whether a value is the scalar `"unchanged"` marker. -/
def isUnchangedLeaf : PValue → Bool
  | .str s => s == "unchanged"
  | .dict _ => false

mutual
/-- Whether an `"unchanged"` marker occurs as a dict entry value at any
depth. -/
def hasUnchanged : PValue → Bool
  | .str _ => false
  | .dict l => hasUnchangedL l

/-- Whether an `"unchanged"` marker occurs in an entry list at any
depth. -/
def hasUnchangedL : List (String × PValue) → Bool
  | [] => false
  | (_, v) :: rest => isUnchangedLeaf v || hasUnchanged v || hasUnchangedL rest
end

/-- The key list of the branch reached by following a path of field
names; `none` when the path does not lead to a dict. -/
def keysAt : PValue → List String → Option (List String)
  | .dict l, [] => some (keysOf l)
  | .dict l, k :: p =>
      match dlookup l k with
      | some v => keysAt v p
      | none => none
  | .str _, _ => none

/-- Keys at a path, defaulting to the empty list when no branch is
there. -/
def keysAtD (v : PValue) (p : List String) : List String := (keysAt v p).getD []

/-! ## Basic lemmas about lookup, keys and append -/

theorem keysOf_append {α : Type} (a b : List (String × α)) :
    keysOf (a ++ b) = keysOf a ++ keysOf b := by
  simp [keysOf]

theorem dlookup_append {α : Type} (a b : List (String × α)) (k : String) :
    dlookup (a ++ b) k =
      match dlookup a k with
      | some v => some v
      | none => dlookup b k := by
  induction a with
  | nil => simp [dlookup]
  | cons hd tl ih =>
      obtain ⟨k', v'⟩ := hd
      by_cases h : k' = k <;> simp [dlookup, h, ih]

theorem dlookup_isSome_iff_mem {α : Type} (l : List (String × α)) (k : String) :
    (dlookup l k).isSome ↔ k ∈ keysOf l := by
  induction l with
  | nil => simp [dlookup, keysOf]
  | cons hd tl ih =>
      obtain ⟨k', v'⟩ := hd
      by_cases h : k' = k
      · subst h; simp [dlookup, keysOf]
      · have h' : ¬k = k' := fun hh => h hh.symm
        simp [dlookup, keysOf, h, h'] at ih ⊢
        exact ih

theorem dlookup_eq_none_iff {α : Type} (l : List (String × α)) (k : String) :
    dlookup l k = none ↔ k ∉ keysOf l := by
  rw [← dlookup_isSome_iff_mem]
  cases dlookup l k <;> simp

theorem dlookup_map_fst {α : Type} (l : List (String × PValue)) (f : String × PValue → α) :
    keysOf (l.map (fun p => (p.1, f p))) = keysOf l := by
  simp [keysOf]

/-! ## Lemmas about the two loops of the diff -/

theorem loopTarget_keys (t : List (String × PValue)) (i : PValue)
    (c : List (String × PValue)) (h : loopTarget t i = .ok c) :
    keysOf c = keysOf t := by
  induction t generalizing c with
  | nil => simp [loopTarget] at h; subst h; rfl
  | cons hd tl ih =>
      obtain ⟨k, v⟩ := hd
      rw [loopTarget] at h
      cases he : entryResult i k v with
      | error e => rw [he] at h; exact absurd h (by simp)
      | ok r =>
          rw [he] at h
          cases ht : loopTarget tl i with
          | error e => rw [ht] at h; exact absurd h (by simp)
          | ok tail =>
              rw [ht] at h
              simp at h
              subst h
              simp [keysOf, ih tail ht, keysOf] at *
              exact ih tail ht

theorem loopTarget_dlookup_none (t : List (String × PValue)) (i : PValue)
    (c : List (String × PValue)) (k : String) (h : loopTarget t i = .ok c)
    (hk : dlookup t k = none) : dlookup c k = none := by
  rw [dlookup_eq_none_iff] at hk ⊢
  rw [loopTarget_keys t i c h]
  exact hk

theorem loopTarget_dlookup_some (t : List (String × PValue)) (i : PValue)
    (c : List (String × PValue)) (k : String) (tv : PValue)
    (h : loopTarget t i = .ok c) (hk : dlookup t k = some tv) :
    ∃ r, entryResult i k tv = .ok r ∧ dlookup c k = some r := by
  induction t generalizing c with
  | nil => simp [dlookup] at hk
  | cons hd tl ih =>
      obtain ⟨k', v'⟩ := hd
      rw [loopTarget] at h
      cases he : entryResult i k' v' with
      | error e => rw [he] at h; exact absurd h (by simp)
      | ok r =>
          rw [he] at h
          cases ht : loopTarget tl i with
          | error e => rw [ht] at h; exact absurd h (by simp)
          | ok tail =>
              rw [ht] at h
              simp at h
              subst h
              by_cases hkk : k' = k
              · subst hkk
                rw [dlookup] at hk
                simp at hk
                subst hk
                exact ⟨r, he, by simp [dlookup]⟩
              · rw [dlookup, if_neg hkk] at hk
                obtain ⟨r2, hr2, hl2⟩ := ih tail ht hk
                exact ⟨r2, hr2, by rw [dlookup, if_neg hkk]; exact hl2⟩

theorem loopTarget_error (t : List (String × PValue)) (i : PValue)
    (k : String) (tv : PValue) (hk : dlookup t k = some tv)
    (he : entryResult i k tv = .error ()) : loopTarget t i = .error () := by
  induction t with
  | nil => simp [dlookup] at hk
  | cons hd tl ih =>
      obtain ⟨k', v'⟩ := hd
      by_cases hkk : k' = k
      · subst hkk
        rw [dlookup] at hk
        simp at hk
        subst hk
        rw [loopTarget, he]
      · rw [dlookup, if_neg hkk] at hk
        rw [loopTarget]
        cases he' : entryResult i k' v' with
        | error e => rfl
        | ok r => rw [ih hk]

theorem loopIncoming_dlookup (t i : List (String × PValue)) (k : String) :
    dlookup (loopIncoming t i) k =
      if (dlookup t k).isSome then none else (dlookup i k).map addEntry := by
  induction i with
  | nil => simp [loopIncoming, dlookup]
  | cons hd tl ih =>
      obtain ⟨k', v'⟩ := hd
      rw [loopIncoming]
      by_cases hs : (dlookup t k').isSome
      · rw [if_pos hs, ih]
        by_cases hkk : k' = k
        · subst hkk
          simp [hs, dlookup]
        · rw [dlookup, if_neg hkk]
      · rw [if_neg hs]
        by_cases hkk : k' = k
        · subst hkk
          simp [dlookup, hs]
        · rw [dlookup, if_neg hkk, ih]
          simp [dlookup, hkk]

theorem determinePillarChanges_ok_shape (a b c : PValue)
    (h : determinePillarChanges a b = .ok c) :
    ∃ tl il c1, a = .dict tl ∧ b = .dict il ∧ loopTarget tl (.dict il) = .ok c1 ∧
      c = .dict (c1 ++ loopIncoming tl il) := by
  cases a with
  | str s => simp [determinePillarChanges] at h
  | dict tl =>
      cases b with
      | str s => simp [determinePillarChanges] at h
      | dict il =>
          rw [determinePillarChanges] at h
          cases ht : loopTarget tl (.dict il) with
          | error e => rw [ht] at h; exact absurd h (by simp)
          | ok c1 =>
              rw [ht] at h
              simp at h
              exact ⟨tl, il, c1, rfl, rfl, ht, h.symm⟩

theorem keysOf_cons {α : Type} (k : String) (v : α) (l : List (String × α)) :
    keysOf ((k, v) :: l) = k :: keysOf l := rfl

/-! ## Lemmas about the pruner -/

theorem pruneList_idem : ∀ l : List (String × PValue), pruneList (pruneList l) = pruneList l
  | [] => by simp [pruneList]
  | (k, v) :: rest => by
      cases v with
      | dict dl =>
          by_cases he : (pruneList dl).isEmpty
          · simp [pruneList, he, pruneList_idem rest]
          · simp [pruneList, he, pruneList_idem dl, pruneList_idem rest]
      | str s =>
          by_cases hs : s = "unchanged"
          · simp [pruneList, hs, pruneList_idem rest]
          · simp [pruneList, hs, pruneList_idem rest]

theorem hasUnchangedL_pruneList : ∀ l : List (String × PValue),
    hasUnchangedL (pruneList l) = false
  | [] => by simp [pruneList, hasUnchangedL]
  | (k, v) :: rest => by
      cases v with
      | dict dl =>
          by_cases he : (pruneList dl).isEmpty
          · simp [pruneList, he, hasUnchangedL_pruneList rest]
          · simp [pruneList, he, hasUnchangedL, isUnchangedLeaf, hasUnchanged,
              hasUnchangedL_pruneList dl, hasUnchangedL_pruneList rest]
      | str s =>
          by_cases hs : s = "unchanged"
          · simp [pruneList, hs, hasUnchangedL_pruneList rest]
          · simp [pruneList, hs, hasUnchangedL, isUnchangedLeaf, hasUnchanged,
              hasUnchangedL_pruneList rest]

theorem pruneList_append : ∀ a b : List (String × PValue),
    pruneList (a ++ b) = pruneList a ++ pruneList b
  | [], b => by simp [pruneList]
  | (k, v) :: rest, b => by
      cases v with
      | dict dl =>
          by_cases he : (pruneList dl).isEmpty
          · simp [pruneList, he, pruneList_append rest b]
          · simp [pruneList, he, pruneList_append rest b]
      | str s =>
          by_cases hs : s = "unchanged"
          · simp [pruneList, hs, pruneList_append rest b]
          · simp [pruneList, hs, pruneList_append rest b]

theorem mem_keysOf_pruneList : ∀ (l : List (String × PValue)) (k : String),
    k ∈ keysOf (pruneList l) → k ∈ keysOf l
  | [], k => by simp [pruneList]
  | (k', v) :: rest, k => by
      intro h
      rw [keysOf_cons, List.mem_cons]
      cases v with
      | dict dl =>
          by_cases he : (pruneList dl).isEmpty
          · have h' : k ∈ keysOf (pruneList rest) := by simpa [pruneList, he] using h
            exact Or.inr (mem_keysOf_pruneList rest k h')
          · have h' : k = k' ∨ k ∈ keysOf (pruneList rest) := by
              simpa [pruneList, he, keysOf_cons] using h
            rcases h' with h' | h'
            · exact Or.inl h'
            · exact Or.inr (mem_keysOf_pruneList rest k h')
      | str s =>
          by_cases hs : s = "unchanged"
          · have h' : k ∈ keysOf (pruneList rest) := by simpa [pruneList, hs] using h
            exact Or.inr (mem_keysOf_pruneList rest k h')
          · have h' : k = k' ∨ k ∈ keysOf (pruneList rest) := by
              simpa [pruneList, hs, keysOf_cons] using h
            rcases h' with h' | h'
            · exact Or.inl h'
            · exact Or.inr (mem_keysOf_pruneList rest k h')

theorem dlookup_pruneList_of_empty : ∀ (l : List (String × PValue)) (k : String)
    (hl : List (String × PValue)), nodupStr (keysOf l) → dlookup l k = some (.dict hl) →
    pruneList hl = [] → dlookup (pruneList l) k = none
  | [], k, hl => by simp [dlookup]
  | (k', v) :: rest, k, hl => by
      intro hnd hlk hpr
      have hnds : nodupStr (k' :: keysOf rest) = true := by rw [← keysOf_cons k' v]; exact hnd
      simp only [nodupStr, Bool.and_eq_true] at hnds
      have hnd1 : nodupStr (keysOf rest) = true := hnds.2
      have hnd2 : k' ∉ keysOf rest := by
        have := hnds.1
        simpa using this
      by_cases hkk : k' = k
      · subst hkk
        rw [dlookup, if_pos rfl] at hlk
        have hv : v = .dict hl := by simpa using hlk
        subst hv
        simp only [pruneList, hpr, List.isEmpty_nil, if_true]
        rw [dlookup_eq_none_iff]
        intro hmem
        exact hnd2 (mem_keysOf_pruneList rest k' hmem)
      · rw [dlookup, if_neg hkk] at hlk
        have ih := dlookup_pruneList_of_empty rest k hl hnd1 hlk hpr
        cases v with
        | dict dl =>
            by_cases he : (pruneList dl).isEmpty
            · simpa [pruneList, he] using ih
            · simp [pruneList, he, dlookup, hkk, ih]
        | str s =>
            by_cases hs : s = "unchanged"
            · simpa [pruneList, hs] using ih
            · simp [pruneList, hs, dlookup, hkk, ih]

/-! ## Lemmas about dict assignment and the fetch loops -/

theorem dlookup_dinsert_self {α : Type} (m : List (String × α)) (k : String) (v : α) :
    dlookup (dinsert m k v) k = some v := by
  induction m with
  | nil => simp [dinsert, dlookup]
  | cons hd tl ih =>
      obtain ⟨a, b⟩ := hd
      by_cases h : a = k
      · subst h; simp [dinsert, dlookup]
      · simp [dinsert, h, dlookup, ih]

theorem dlookup_dinsert_ne {α : Type} (m : List (String × α)) (k k' : String) (v : α)
    (h : ¬k' = k) : dlookup (dinsert m k v) k' = dlookup m k' := by
  have h' : ¬k = k' := fun hh => h hh.symm
  induction m with
  | nil => simp [dinsert, dlookup, h']
  | cons hd tl ih =>
      obtain ⟨a, b⟩ := hd
      by_cases hak : a = k
      · subst hak; simp [dinsert, dlookup, h']
      · by_cases hak' : a = k'
        · subst hak'; simp [dinsert, hak, dlookup]
        · simp [dinsert, hak, dlookup, hak', ih]

theorem mem_keysOf_dinsert {α : Type} (m : List (String × α)) (k k' : String) (v : α) :
    k' ∈ keysOf (dinsert m k v) ↔ k' = k ∨ k' ∈ keysOf m := by
  induction m with
  | nil => simp [dinsert, keysOf]
  | cons hd tl ih =>
      obtain ⟨a, b⟩ := hd
      by_cases hak : a = k
      · subst hak; simp [dinsert, keysOf_cons]
      · simp [dinsert, hak, keysOf_cons, ih]
        tauto

theorem nodupStr_keysOf_dinsert {α : Type} (m : List (String × α)) (k : String) (v : α)
    (h : nodupStr (keysOf m)) : nodupStr (keysOf (dinsert m k v)) := by
  induction m with
  | nil => simp [dinsert, keysOf, nodupStr]
  | cons hd tl ih =>
      obtain ⟨a, b⟩ := hd
      rw [keysOf_cons] at h
      simp only [nodupStr, Bool.and_eq_true] at h
      have ha : a ∉ keysOf tl := by
        have := h.1
        simpa using this
      by_cases hak : a = k
      · subst hak
        rw [dinsert, if_pos rfl, keysOf_cons]
        simp only [nodupStr, Bool.and_eq_true]
        refine ⟨?_, h.2⟩
        simpa using ha
      · rw [dinsert, if_neg hak, keysOf_cons]
        simp only [nodupStr, Bool.and_eq_true]
        refine ⟨?_, ih h.2⟩
        have : a ∉ keysOf (dinsert tl k v) := by
          rw [mem_keysOf_dinsert]
          rintro (hh | hh)
          · exact hak hh
          · exact ha hh
        simpa using this

theorem fetchPhase_frame (fetch : String → String → Except Unit PValue) (tEnv iEnv : String) :
    ∀ (ids : List String) (tm0 im0 tm im : List (String × PValue)) (id : String),
    fetchPhase fetch tEnv iEnv ids tm0 im0 = .ok (tm, im) → id ∉ ids →
    dlookup tm id = dlookup tm0 id ∧ dlookup im id = dlookup im0 id := by
  intro ids
  induction ids with
  | nil => intro tm0 im0 tm im id h _; simp [fetchPhase] at h; simp [h.1, h.2]
  | cons x rest ih =>
      intro tm0 im0 tm im id h hmem
      rw [fetchPhase] at h
      cases hft : fetch x tEnv with
      | error e => rw [hft] at h; exact absurd h (by simp)
      | ok tc =>
          rw [hft] at h
          cases hfi : fetch x iEnv with
          | error e => rw [hfi] at h; exact absurd h (by simp)
          | ok ic =>
              rw [hfi] at h
              have hne : ¬id = x := fun hh => hmem (hh ▸ List.mem_cons_self x rest)
              have hrest : id ∉ rest := fun hh => hmem (List.mem_cons_of_mem x hh)
              obtain ⟨h1, h2⟩ := ih _ _ _ _ id h hrest
              exact ⟨by rw [h1, dlookup_dinsert_ne _ _ _ _ hne],
                by rw [h2, dlookup_dinsert_ne _ _ _ _ hne]⟩

theorem fetchPhase_lookup (fetch : String → String → Except Unit PValue) (tEnv iEnv : String) :
    ∀ (ids : List String) (tm0 im0 tm im : List (String × PValue)) (id : String),
    fetchPhase fetch tEnv iEnv ids tm0 im0 = .ok (tm, im) → id ∈ ids →
    ∃ tc ic, fetch id tEnv = .ok tc ∧ fetch id iEnv = .ok ic ∧
      dlookup tm id = some tc ∧ dlookup im id = some ic := by
  intro ids
  induction ids with
  | nil => intro _ _ _ _ _ _ hmem; simp at hmem
  | cons x rest ih =>
      intro tm0 im0 tm im id h hmem
      rw [fetchPhase] at h
      cases hft : fetch x tEnv with
      | error e => rw [hft] at h; exact absurd h (by simp)
      | ok tc =>
          rw [hft] at h
          cases hfi : fetch x iEnv with
          | error e => rw [hfi] at h; exact absurd h (by simp)
          | ok ic =>
              rw [hfi] at h
              by_cases hid : id ∈ rest
              · exact ih _ _ _ _ id h hid
              · have hx : id = x := by
                  rcases List.mem_cons.mp hmem with hh | hh
                  · exact hh
                  · exact absurd hh hid
                subst hx
                obtain ⟨h1, h2⟩ := fetchPhase_frame fetch tEnv iEnv rest _ _ _ _ id h hid
                refine ⟨tc, ic, hft, hfi, ?_, ?_⟩
                · rw [h1, dlookup_dinsert_self]
                · rw [h2, dlookup_dinsert_self]

theorem fetchPhase_nodup (fetch : String → String → Except Unit PValue) (tEnv iEnv : String) :
    ∀ (ids : List String) (tm0 im0 tm im : List (String × PValue)),
    fetchPhase fetch tEnv iEnv ids tm0 im0 = .ok (tm, im) →
    nodupStr (keysOf tm0) → nodupStr (keysOf im0) →
    nodupStr (keysOf tm) ∧ nodupStr (keysOf im) := by
  intro ids
  induction ids with
  | nil =>
      intro tm0 im0 tm im h h1 h2
      simp [fetchPhase] at h
      exact ⟨h.1 ▸ h1, h.2 ▸ h2⟩
  | cons x rest ih =>
      intro tm0 im0 tm im h h1 h2
      rw [fetchPhase] at h
      cases hft : fetch x tEnv with
      | error e => rw [hft] at h; exact absurd h (by simp)
      | ok tc =>
          rw [hft] at h
          cases hfi : fetch x iEnv with
          | error e => rw [hfi] at h; exact absurd h (by simp)
          | ok ic =>
              rw [hfi] at h
              exact ih _ _ _ _ h (nodupStr_keysOf_dinsert _ _ _ h1)
                (nodupStr_keysOf_dinsert _ _ _ h2)

theorem fetchPhase_error (fetch : String → String → Except Unit PValue) (tEnv iEnv : String) :
    ∀ (ids : List String) (tm0 im0 : List (String × PValue)) (id : String), id ∈ ids →
    (fetch id tEnv = .error () ∨ fetch id iEnv = .error ()) →
    fetchPhase fetch tEnv iEnv ids tm0 im0 = .error () := by
  intro ids
  induction ids with
  | nil => intro _ _ _ hmem; simp at hmem
  | cons x rest ih =>
      intro tm0 im0 id hmem herr
      rw [fetchPhase]
      cases hft : fetch x tEnv with
      | error e => rfl
      | ok tc =>
          cases hfi : fetch x iEnv with
          | error e => rfl
          | ok ic =>
              by_cases hid : id ∈ rest
              · exact ih _ _ id hid herr
              · have hx : id = x := by
                  rcases List.mem_cons.mp hmem with hh | hh
                  · exact hh
                  · exact absurd hh hid
                subst hx
                rcases herr with herr | herr
                · rw [herr] at hft; exact absurd hft (by simp)
                · rw [herr] at hfi; exact absurd hfi (by simp)

theorem statePhase_frame (fetch : String → String → Except Unit (List String))
    (tEnv iEnv : String) :
    ∀ (ids : List String) (acc m : List (String × LowstateDiff)) (id : String),
    statePhase fetch tEnv iEnv ids acc = .ok m → id ∉ ids →
    dlookup m id = dlookup acc id := by
  intro ids
  induction ids with
  | nil => intro acc m id h _; simp [statePhase] at h; simp [h]
  | cons x rest ih =>
      intro acc m id h hmem
      rw [statePhase] at h
      cases hft : fetch x tEnv with
      | error e => rw [hft] at h; exact absurd h (by simp)
      | ok tc =>
          rw [hft] at h
          cases hfi : fetch x iEnv with
          | error e => rw [hfi] at h; exact absurd h (by simp)
          | ok ic =>
              rw [hfi] at h
              have hne : ¬id = x := fun hh => hmem (hh ▸ List.mem_cons_self x rest)
              have hrest : id ∉ rest := fun hh => hmem (List.mem_cons_of_mem x hh)
              rw [ih _ _ id h hrest, dlookup_dinsert_ne _ _ _ _ hne]

theorem statePhase_lookup (fetch : String → String → Except Unit (List String))
    (tEnv iEnv : String) :
    ∀ (ids : List String) (acc m : List (String × LowstateDiff)) (id : String),
    statePhase fetch tEnv iEnv ids acc = .ok m → id ∈ ids →
    ∃ tc ic, fetch id tEnv = .ok tc ∧ fetch id iEnv = .ok ic ∧
      dlookup m id = some (lowstateDiff tc ic) := by
  intro ids
  induction ids with
  | nil => intro _ _ _ _ hmem; simp at hmem
  | cons x rest ih =>
      intro acc m id h hmem
      rw [statePhase] at h
      cases hft : fetch x tEnv with
      | error e => rw [hft] at h; exact absurd h (by simp)
      | ok tc =>
          rw [hft] at h
          cases hfi : fetch x iEnv with
          | error e => rw [hfi] at h; exact absurd h (by simp)
          | ok ic =>
              rw [hfi] at h
              by_cases hid : id ∈ rest
              · exact ih _ _ id h hid
              · have hx : id = x := by
                  rcases List.mem_cons.mp hmem with hh | hh
                  · exact hh
                  · exact absurd hh hid
                subst hx
                have h1 := statePhase_frame fetch tEnv iEnv rest _ _ id h hid
                exact ⟨tc, ic, hft, hfi, by rw [h1, dlookup_dinsert_self]⟩

theorem statePhase_error (fetch : String → String → Except Unit (List String))
    (tEnv iEnv : String) :
    ∀ (ids : List String) (acc : List (String × LowstateDiff)) (id : String), id ∈ ids →
    (fetch id tEnv = .error () ∨ fetch id iEnv = .error ()) →
    statePhase fetch tEnv iEnv ids acc = .error () := by
  intro ids
  induction ids with
  | nil => intro _ _ hmem; simp at hmem
  | cons x rest ih =>
      intro acc id hmem herr
      rw [statePhase]
      cases hft : fetch x tEnv with
      | error e => rfl
      | ok tc =>
          cases hfi : fetch x iEnv with
          | error e => rfl
          | ok ic =>
              by_cases hid : id ∈ rest
              · exact ih _ id hid herr
              · have hx : id = x := by
                  rcases List.mem_cons.mp hmem with hh | hh
                  · exact hh
                  · exact absurd hh hid
                subst hx
                rcases herr with herr | herr
                · rw [herr] at hft; exact absurd hft (by simp)
                · rw [herr] at hfi; exact absurd hfi (by simp)

/-! ## Self-diff lemmas -/

theorem mem_keysOf_of_mem {α : Type} {l : List (String × α)} {k : String} {v : α}
    (h : (k, v) ∈ l) : k ∈ keysOf l := by
  simp only [keysOf, List.mem_map]
  exact ⟨(k, v), h, rfl⟩

theorem dlookup_self : ∀ (l : List (String × PValue)) (k : String) (v : PValue),
    nodupStr (keysOf l) → (k, v) ∈ l → dlookup l k = some v
  | [], k, v => by simp
  | (a, b) :: tl, k, v => by
      intro hnd hmem
      rw [keysOf_cons] at hnd
      simp only [nodupStr, Bool.and_eq_true] at hnd
      have ha : a ∉ keysOf tl := by have := hnd.1; simpa using this
      rcases List.mem_cons.mp hmem with hh | hh
      · have h1 : k = a ∧ v = b := by simpa [Prod.ext_iff] using hh
        obtain ⟨rfl, rfl⟩ := h1
        rw [dlookup, if_pos rfl]
      · have hak : ¬a = k := by
          intro hak
          subst hak
          exact ha (mem_keysOf_of_mem hh)
        rw [dlookup, if_neg hak]
        exact dlookup_self tl k v hnd.2 hh

theorem loopIncoming_subset_nil : ∀ (t i : List (String × PValue)),
    (∀ k, k ∈ keysOf i → k ∈ keysOf t) → loopIncoming t i = []
  | t, [] => by intro _; simp [loopIncoming]
  | t, (k, v) :: rest => by
      intro hsub
      have hk : k ∈ keysOf t := hsub k (by rw [keysOf_cons]; exact List.mem_cons_self _ _)
      have hksome : (dlookup t k).isSome := (dlookup_isSome_iff_mem t k).mpr hk
      rw [loopIncoming, if_pos hksome]
      exact loopIncoming_subset_nil t rest
        (fun k' h => hsub k' (by rw [keysOf_cons]; exact List.mem_cons_of_mem _ h))

theorem dlookup_map_added : ∀ (l : List (String × PValue)) (k : String),
    dlookup (l.map (fun p => (p.1, PValue.str "added"))) k =
      (dlookup l k).map (fun _ => PValue.str "added")
  | [], k => by simp [dlookup]
  | (a, b) :: tl, k => by
      by_cases h : a = k
      · subst h; simp [dlookup]
      · simp [dlookup, h, dlookup_map_added tl k]

theorem selfLoop (n : ℕ) : ∀ (l full : List (String × PValue)), sizeOf l ≤ n → wfL l →
    (∀ k v, (k, v) ∈ l → dlookup full k = some v) →
    ∃ c, loopTarget l (.dict full) = .ok c ∧ pruneList c = [] := by
  induction n with
  | zero =>
      intro l full hsz
      exfalso
      cases l <;> simp at hsz
  | succ n ih =>
      intro l full hsz hwf hlk
      cases l with
      | nil => exact ⟨[], by simp [loopTarget], by simp [pruneList]⟩
      | cons hd tl =>
          obtain ⟨k, v⟩ := hd
          have hwf' : wfP v = true ∧ wfL tl = true := by
            simpa [wfL, Bool.and_eq_true] using hwf
          have hdl : dlookup full k = some v := hlk k v (List.mem_cons_self _ _)
          have hlk' : ∀ k' v', (k', v') ∈ tl → dlookup full k' = some v' :=
            fun k' v' h => hlk k' v' (List.mem_cons_of_mem _ h)
          have hszc : sizeOf ((k, v) :: tl) = 1 + (1 + sizeOf k + sizeOf v) + sizeOf tl := by
            simp
          have hszt : sizeOf tl ≤ n := by omega
          cases v with
          | str s =>
              obtain ⟨ct, hct, hprt⟩ := ih tl full hszt hwf'.2 hlk'
              refine ⟨(k, .str "unchanged") :: ct, ?_, ?_⟩
              · simp [loopTarget, entryResult, hdl, leafCompare, hct]
              · simp [pruneList, hprt]
          | dict dl =>
              have hwfd : nodupStr (keysOf dl) = true ∧ wfL dl = true := by
                simpa [wfP, Bool.and_eq_true] using hwf'.1
              have hszd : sizeOf dl ≤ n := by
                have : sizeOf (PValue.dict dl) = 1 + sizeOf dl := by simp
                omega
              have hlkd : ∀ k' v', (k', v') ∈ dl → dlookup dl k' = some v' :=
                fun k' v' h => dlookup_self dl k' v' hwfd.1 h
              obtain ⟨cd, hcd, hprd⟩ := ih dl dl hszd hwfd.2 hlkd
              have hInc : loopIncoming dl dl = [] :=
                loopIncoming_subset_nil dl dl (fun _ h => h)
              have hdpc : determinePillarChanges (.dict dl) (.dict dl) = .ok (.dict cd) := by
                simp [determinePillarChanges, hcd, hInc]
              obtain ⟨ct, hct, hprt⟩ := ih tl full hszt hwf'.2 hlk'
              refine ⟨(k, .dict cd) :: ct, ?_, ?_⟩
              · simp [loopTarget, entryResult, hdl, hdpc, hct]
              · simp [pruneList, hprd, hprt]

theorem mem_keysOf_loopIncoming (t i : List (String × PValue)) (k : String) :
    k ∈ keysOf (loopIncoming t i) ↔ (¬(dlookup t k).isSome ∧ k ∈ keysOf i) := by
  rw [← dlookup_isSome_iff_mem, ← dlookup_isSome_iff_mem, loopIncoming_dlookup]
  by_cases h : (dlookup t k).isSome
  · simp [h]
  · simp [h]

/-! ## Claim theorems -/

/-- Claim C8: pruning is idempotent — for every DiffNode `x`,
`_remove_unchanged_pillar` applied to an already-pruned tree yields the
same tree: `prune (prune x) = prune x`. -/
theorem prune_idempotent (x : PValue) :
    removeUnchanged (removeUnchanged x) = removeUnchanged x := by
  cases x with
  | str s => simp [removeUnchanged]
  | dict l => simp [removeUnchanged, pruneList_idem l]

/-- Claim C7 (counterexample): `_remove_unchanged_pillar` does not leave its
argument unchanged — it deletes keys in place, so after the call on
`{"a": "unchanged"}` the argument holds `{}`, not its original value. -/
theorem prune_not_pure_cex :
    removeUnchanged (.dict [("a", .str "unchanged")]) ≠ .dict [("a", .str "unchanged")] := by
  simp [removeUnchanged, pruneList]

/-- Claim C7 (amended): `_remove_unchanged_pillar` mutates its argument in
place; the argument after the call equals the returned pruned value,
which contains no `"unchanged"` marker.  Hence whenever the input holds
an `"unchanged"` marker anywhere, the call changes the argument: the
post-call value differs from the original. -/
theorem prune_mutates_argument (x : PValue) (h : hasUnchanged x = true) :
    removeUnchanged x ≠ x ∧ hasUnchanged (removeUnchanged x) = false := by
  cases x with
  | str s => simp [hasUnchanged] at h
  | dict l =>
      have hpr : hasUnchanged (removeUnchanged (.dict l)) = false := by
        simp [removeUnchanged, hasUnchanged, hasUnchangedL_pruneList l]
      refine ⟨?_, hpr⟩
      intro heq
      rw [heq] at hpr
      rw [hpr] at h
      exact absurd h (by simp)

/-- Claim C7 (witness): concrete instance of `prune_mutates_argument` at
`{"a": "unchanged"}`. -/
theorem prune_mutates_argument_wit :
    removeUnchanged (.dict [("a", .str "unchanged")]) ≠ .dict [("a", .str "unchanged")] ∧
      hasUnchanged (removeUnchanged (.dict [("a", .str "unchanged")])) = false :=
  prune_mutates_argument (.dict [("a", .str "unchanged")])
    (by simp [hasUnchanged, hasUnchangedL, isUnchangedLeaf])

/-- Claim C10: the `key` parameter of `read_secret` has no effect — for every
client, path and key, the call behaves exactly as with `key = None`,
and a successful call returns the entire secret response read from the
`kv` mount at `path`. -/
theorem read_secret_key_ignored (client : VaultClient) (path : String) (key : Option String)
    (r : PValue) :
    read_secret client path key = read_secret client path none ∧
      (read_secret client path key = .ok r → r = client.kvRead "kv" path) := by
  refine ⟨rfl, ?_⟩
  intro h
  rw [read_secret] at h
  by_cases ha : client.authenticated
  · rw [if_pos ha] at h
    simpa using h.symm
  · rw [if_neg (by simpa using ha)] at h
    exact absurd h (by simp)

/-- Claim C10 (witness): concrete instance of `read_secret_key_ignored` for an
authenticated client whose store returns `"s"`. -/
theorem read_secret_key_ignored_wit :
    read_secret ⟨true, fun _ _ => .str "s"⟩ "p" (some "k") =
        read_secret ⟨true, fun _ _ => .str "s"⟩ "p" none ∧
      PValue.str "s" = VaultClient.kvRead ⟨true, fun _ _ => .str "s"⟩ "kv" "p" :=
  ⟨(read_secret_key_ignored ⟨true, fun _ _ => .str "s"⟩ "p" (some "k") (.str "s")).1,
    (read_secret_key_ignored ⟨true, fun _ _ => .str "s"⟩ "p" (some "k") (.str "s")).2
      (by simp [read_secret])⟩

/-- Claim C6: the set diff of `validate_state_pr` computes
`added = incoming − target` and `removed = target − incoming`; each key
is present in the per-minion result object only when its set is
non-empty, and when both differences are empty the result is the empty
object `{}` (both keys absent), not an absent entry. -/
theorem set_diff_contract (target incoming : List String) :
    (lowstateDiff target incoming).added =
      (if incoming.toFinset \ target.toFinset = ∅ then none
       else some (incoming.toFinset \ target.toFinset)) ∧
    (lowstateDiff target incoming).removed =
      (if target.toFinset \ incoming.toFinset = ∅ then none
       else some (target.toFinset \ incoming.toFinset)) ∧
    (incoming.toFinset \ target.toFinset = ∅ → target.toFinset \ incoming.toFinset = ∅ →
      lowstateDiff target incoming = ⟨none, none⟩) := by
  refine ⟨?_, ?_, ?_⟩
  · rw [lowstateDiff]
    by_cases h : incoming.toFinset \ target.toFinset = ∅
    · simp [h]
    · simp [h, Finset.card_pos, Finset.nonempty_iff_ne_empty]
  · rw [lowstateDiff]
    by_cases h : target.toFinset \ incoming.toFinset = ∅
    · simp [h]
    · simp [h, Finset.card_pos, Finset.nonempty_iff_ne_empty]
  · intro h1 h2
    rw [lowstateDiff]
    simp [h1, h2]

/-- Claim C6 (witness): concrete instance of `set_diff_contract` at equal plan
sets, including the discharged empty-difference implications. -/
theorem set_diff_contract_wit :
    (lowstateDiff ["s1"] ["s1"]).added =
      (if List.toFinset ["s1"] \ List.toFinset ["s1"] = ∅ then none
       else some (List.toFinset ["s1"] \ List.toFinset ["s1"])) ∧
      lowstateDiff ["s1"] ["s1"] = ⟨none, none⟩ :=
  ⟨(set_diff_contract ["s1"] ["s1"]).1,
    (set_diff_contract ["s1"] ["s1"]).2.2 (by simp) (by simp)⟩

/-- Claim C5: fail-fast, all-or-nothing — if fetching data for any requested
minion fails, `validate_pillar_pr` and `validate_state_pr` both raise
and return no report at all; no partial per-host results survive. -/
theorem fail_fast_no_partial_report (ids : List String) (id : String) (tEnv iEnv : String)
    (fetchP : String → String → Except Unit PValue)
    (fetchS : String → String → Except Unit (List String)) (hmem : id ∈ ids) :
    ((fetchP id tEnv = .error () ∨ fetchP id iEnv = .error ()) →
      validatePillarPr ids fetchP tEnv iEnv = .error ()) ∧
    ((fetchS id tEnv = .error () ∨ fetchS id iEnv = .error ()) →
      validateStatePr ids fetchS tEnv iEnv = .error ()) := by
  constructor
  · intro herr
    have h := fetchPhase_error fetchP tEnv iEnv ids [] [] id hmem herr
    simp [validatePillarPr, h]
  · intro herr
    rw [validateStatePr]
    exact statePhase_error fetchS tEnv iEnv ids [] id hmem herr

/-- Claim C5 (witness): with three minions where the second one's target fetch
fails, both validations return an error and no report. -/
theorem fail_fast_no_partial_report_wit :
    validatePillarPr ["h1", "h2", "h3"]
        (fun i _ => if i = "h2" then .error () else .ok (.dict [])) "t" "i" = .error () ∧
    validateStatePr ["h1", "h2", "h3"]
        (fun i _ => if i = "h2" then .error () else .ok []) "t" "i" = .error () :=
  ⟨(fail_fast_no_partial_report ["h1", "h2", "h3"] "h2" "t" "i"
      (fun i _ => if i = "h2" then .error () else .ok (.dict []))
      (fun i _ => if i = "h2" then .error () else .ok []) (by simp)).1 (Or.inl (by simp)),
   (fail_fast_no_partial_report ["h1", "h2", "h3"] "h2" "t" "i"
      (fun i _ => if i = "h2" then .error () else .ok (.dict []))
      (fun i _ => if i = "h2" then .error () else .ok []) (by simp)).2 (Or.inl (by simp))⟩

/-- Claim C2 (counterexample): a type change with a Branch on the target side
and a Leaf on the incoming side makes `_determine_pillar_changes` raise
(`.error ()`), so type changes are not uniformly absorbed into
`Modified` and a structural-mismatch failure does exist. -/
theorem typeChange_raises_cex :
    determinePillarChanges (.dict [("a", .dict [("b", .str "1")])])
      (.dict [("a", .str "x")]) = .error () := by
  simp [determinePillarChanges, loopTarget, entryResult, dlookup]

/-- Claim C2 (amended): a type change is absorbed into `Modified` only when
the target side is the Leaf: then the field is classified `"modified"`.
When the target side is the Branch and the incoming side the Leaf, the
recursive call receives a non-dict and the whole diff raises. -/
theorem typeChange_modified_or_raises (t i : List (String × PValue)) (c : PValue)
    (k s : String) (dl : List (String × PValue)) :
    (determinePillarChanges (.dict t) (.dict i) = .ok c →
      dlookup t k = some (.str s) → dlookup i k = some (.dict dl) →
      ∃ cl, c = .dict cl ∧ dlookup cl k = some (.str "modified")) ∧
    (dlookup t k = some (.dict dl) → dlookup i k = some (.str s) →
      determinePillarChanges (.dict t) (.dict i) = .error ()) := by
  constructor
  · intro h ht hi
    obtain ⟨tl, il, c1, htl, hil, hlt, rfl⟩ := determinePillarChanges_ok_shape _ _ _ h
    obtain rfl : t = tl := by injection htl
    obtain rfl : i = il := by injection hil
    obtain ⟨r, hent, hc1⟩ := loopTarget_dlookup_some t (.dict i) c1 k (.str s) hlt ht
    have hrm : r = .str "modified" := by
      simp [entryResult, hi, leafCompare] at hent
      exact hent.symm
    subst hrm
    refine ⟨c1 ++ loopIncoming t i, rfl, ?_⟩
    rw [dlookup_append, hc1]
  · intro ht hi
    have hent : entryResult (.dict i) k (.dict dl) = .error () := by
      simp [entryResult, hi, determinePillarChanges]
    have hlt := loopTarget_error t (.dict i) k (.dict dl) ht hent
    simp [determinePillarChanges, hlt]

/-- Claim C2 (witness): concrete instances of both halves of
`typeChange_modified_or_raises`: a Leaf-vs-Branch field is classified
`"modified"`, and a Branch-vs-Leaf field makes the diff raise. -/
theorem typeChange_modified_or_raises_wit :
    (∃ cl, PValue.dict [("k", PValue.str "modified")] = PValue.dict cl ∧
      dlookup cl "k" = some (.str "modified")) ∧
    determinePillarChanges (.dict [("k", .dict [("b", .str "1")])])
      (.dict [("k", .str "x")]) = .error () :=
  ⟨(typeChange_modified_or_raises [("k", .str "v")] [("k", .dict [("b", .str "1")])]
      (.dict [("k", PValue.str "modified")]) "k" "v" [("b", .str "1")]).1
      (by simp [determinePillarChanges, loopTarget, entryResult, loopIncoming, dlookup,
        leafCompare])
      (by simp [dlookup]) (by simp [dlookup]),
   (typeChange_modified_or_raises [("k", .dict [("b", .str "1")])] [("k", .str "x")]
      (.dict []) "k" "x" [("b", .str "1")]).2 (by simp [dlookup]) (by simp [dlookup])⟩

/-- Claim C1 (counterexample): for target `{}` and incoming
`{y: {z: {w: "1"}}}`, the diff reports `{y: {z: "added"}}` — the key
`z` (itself a Branch) is flattened to the single marker `"added"` and
the leaf `w` beneath it is never classified, so the diff does not mark
every leaf of the new subtree recursively. -/
theorem addedSubtree_not_recursive_cex :
    determinePillarChanges (.dict [])
        (.dict [("y", .dict [("z", .dict [("w", .str "1")])])]) =
      .ok (.dict [("y", .dict [("z", .str "added")])]) ∧
    keyOccurs "w" (.dict [("y", .dict [("z", .str "added")])]) = false := by
  constructor
  · simp [determinePillarChanges, loopTarget, loopIncoming, dlookup, addEntry]
  · simp [keyOccurs, keyOccursL]

/-- Claim C1 (amended): for every field present only in `incoming` whose value
is a Branch, the diff maps that field to a Branch whose entries are
exactly the immediate children of the new subtree, each classified by
the flat marker `"added"` (regardless of whether the child is itself a
Branch); deeper levels are not descended into. -/
theorem addedSubtree_immediate_children (t i : List (String × PValue)) (c : PValue)
    (k : String) (dl : List (String × PValue))
    (h : determinePillarChanges (.dict t) (.dict i) = .ok c)
    (ht : dlookup t k = none) (hi : dlookup i k = some (.dict dl)) :
    ∃ cl, c = .dict cl ∧
      dlookup cl k = some (.dict (dl.map (fun p => (p.1, PValue.str "added")))) := by
  obtain ⟨tl, il, c1, htl, hil, hlt, rfl⟩ := determinePillarChanges_ok_shape _ _ _ h
  obtain rfl : t = tl := by injection htl
  obtain rfl : i = il := by injection hil
  refine ⟨c1 ++ loopIncoming t i, rfl, ?_⟩
  have hn : dlookup c1 k = none := loopTarget_dlookup_none t (.dict i) c1 k hlt ht
  rw [dlookup_append, hn]
  simp [loopIncoming_dlookup, ht, hi, addEntry]

/-- Claim C1 (witness): concrete instance of `addedSubtree_immediate_children`
at target `{}` and incoming `{y: {z: "1"}}`. -/
theorem addedSubtree_immediate_children_wit :
    ∃ cl, PValue.dict [("y", PValue.dict [("z", PValue.str "added")])] = PValue.dict cl ∧
      dlookup cl "y" =
        some (.dict (([("z", PValue.str "1")]).map (fun p => (p.1, PValue.str "added")))) :=
  addedSubtree_immediate_children [] [("y", .dict [("z", .str "1")])]
    (.dict [("y", PValue.dict [("z", PValue.str "added")])]) "y" [("z", .str "1")]
    (by simp [determinePillarChanges, loopTarget, loopIncoming, dlookup, addEntry])
    (by simp [dlookup]) (by simp [dlookup])

/-- Claim C3 (counterexample): for the Leaf ConfigTree `a = "v"`, the diff of
`a` against itself raises instead of producing a prunable result, so
`prune (diff a a)` is not the empty report. -/
theorem selfDiff_leaf_cex :
    determinePillarChanges (.str "v") (.str "v") = .error () ∧
      (determinePillarChanges (.str "v") (.str "v")).map removeUnchanged ≠
        .ok (.dict []) := by
  constructor
  · simp [determinePillarChanges]
  · simp [determinePillarChanges, Except.map]

/-- Claim C3 (amended): self-diff identity holds on Branches — for every
Branch ConfigTree (a dict tree with unique keys at every level, as every
rendered Python dict is), diffing it against itself succeeds and prunes
to the empty report `{}`; on Leaf inputs the diff raises instead. -/
theorem selfDiff_prunes_empty (l : List (String × PValue)) (hwf : wfP (.dict l) = true) :
    (determinePillarChanges (.dict l) (.dict l)).map removeUnchanged = .ok (.dict []) := by
  have h : nodupStr (keysOf l) = true ∧ wfL l = true := by
    simpa [wfP, Bool.and_eq_true] using hwf
  obtain ⟨c, hc, hp⟩ := selfLoop (sizeOf l) l l le_rfl h.2
    (fun k v hm => dlookup_self l k v h.1 hm)
  have hInc : loopIncoming l l = [] := loopIncoming_subset_nil l l (fun _ hh => hh)
  simp [determinePillarChanges, hc, hInc, removeUnchanged, hp, Except.map]

/-- Claim C3 (witness): concrete instance of `selfDiff_prunes_empty` on a
two-level Branch. -/
theorem selfDiff_prunes_empty_wit :
    wfP (.dict [("a", .str "1"), ("b", .dict [("c", .str "2")])]) = true ∧
    (determinePillarChanges (.dict [("a", .str "1"), ("b", .dict [("c", .str "2")])])
        (.dict [("a", .str "1"), ("b", .dict [("c", .str "2")])])).map removeUnchanged =
      .ok (.dict []) :=
  ⟨by simp [wfP, wfL, nodupStr, keysOf],
   selfDiff_prunes_empty [("a", .str "1"), ("b", .dict [("c", .str "2")])]
     (by simp [wfP, wfL, nodupStr, keysOf])⟩

/-- Claim C4: host-level omission rule — when a requested minion's own diff
prunes to the empty report, `validate_pillar_pr` omits that minion's key
entirely from its returned mapping (the outer prune deletes it), while
`validate_state_pr` keys every requested minion id in its result, with
its set-diff object, even when that object is empty. -/
theorem host_omission_rule :
    (∀ (ids : List String) (fetch : String → String → Except Unit PValue)
        (tEnv iEnv : String) (m : PValue) (id : String) (tc ic hc : PValue),
      validatePillarPr ids fetch tEnv iEnv = .ok m → id ∈ ids →
      fetch id tEnv = .ok tc → fetch id iEnv = .ok ic →
      determinePillarChanges tc ic = .ok hc → removeUnchanged hc = .dict [] →
      ∃ ml, m = .dict ml ∧ dlookup ml id = none) ∧
    (∀ (ids : List String) (fetch : String → String → Except Unit (List String))
        (tEnv iEnv : String) (ms : List (String × LowstateDiff)) (id : String),
      validateStatePr ids fetch tEnv iEnv = .ok ms → id ∈ ids →
      ∃ d, dlookup ms id = some d) := by
  constructor
  · intro ids fetch tEnv iEnv m id tc ic hc hval hmem hft hfi hdpc hprune
    rw [validatePillarPr] at hval
    cases hfp : fetchPhase fetch tEnv iEnv ids [] [] with
    | error e => rw [hfp] at hval; exact absurd hval (by simp)
    | ok tmim =>
        obtain ⟨tm, im⟩ := tmim
        rw [hfp] at hval
        have hval2 : (match determinePillarChanges (.dict tm) (.dict im) with
            | Except.error e => (Except.error e : Except Unit PValue)
            | Except.ok c => Except.ok (removeUnchanged c)) = Except.ok m := hval
        cases hdo : determinePillarChanges (.dict tm) (.dict im) with
        | error e => rw [hdo] at hval2; exact absurd hval2 (by simp)
        | ok cc =>
            rw [hdo] at hval2
            have hm : m = removeUnchanged cc := by
              have := hval2
              simp at this
              exact this.symm
            obtain ⟨tc', ic', hft', hfi', hltm, him⟩ :=
              fetchPhase_lookup fetch tEnv iEnv ids [] [] tm im id hfp hmem
            have htc : tc = tc' := by rw [hft] at hft'; simpa using hft'
            have hic : ic = ic' := by rw [hfi] at hfi'; simpa using hfi'
            subst htc
            subst hic
            obtain ⟨tl2, il2, c1, htl2, hil2, hlt, rfl⟩ :=
              determinePillarChanges_ok_shape _ _ _ hdo
            obtain rfl : tm = tl2 := by injection htl2
            obtain rfl : im = il2 := by injection hil2
            obtain ⟨tcl, icl, hcl1, rfl, rfl, hlti, rfl⟩ :=
              determinePillarChanges_ok_shape _ _ _ hdpc
            obtain ⟨r, hent, hc1l⟩ :=
              loopTarget_dlookup_some tm (.dict im) c1 id (.dict tcl) hlt hltm
            have hent2 : determinePillarChanges (.dict tcl) (.dict icl) = .ok r := by
              simpa [entryResult, him] using hent
            have hr : r = .dict (hcl1 ++ loopIncoming tcl icl) := by
              rw [hdpc] at hent2
              simpa using hent2.symm
            subst hr
            have hpl : pruneList (hcl1 ++ loopIncoming tcl icl) = [] := by
              simpa [removeUnchanged] using hprune
            have hnd : nodupStr (keysOf c1) = true := by
              rw [loopTarget_keys tm (.dict im) c1 hlt]
              exact (fetchPhase_nodup fetch tEnv iEnv ids [] [] tm im hfp
                (by simp [keysOf, nodupStr]) (by simp [keysOf, nodupStr])).1
            have hn1 : dlookup (pruneList c1) id = none :=
              dlookup_pruneList_of_empty c1 id (hcl1 ++ loopIncoming tcl icl) hnd hc1l hpl
            have hn2 : dlookup (pruneList (loopIncoming tm im)) id = none := by
              rw [dlookup_eq_none_iff]
              intro hmem2
              have hmem3 := mem_keysOf_pruneList _ _ hmem2
              rw [mem_keysOf_loopIncoming] at hmem3
              exact hmem3.1 (by simp [hltm])
            refine ⟨pruneList c1 ++ pruneList (loopIncoming tm im), ?_, ?_⟩
            · rw [hm]
              simp [removeUnchanged, pruneList_append]
            · rw [dlookup_append, hn1]
              exact hn2
  · intro ids fetch tEnv iEnv ms id hval hmem
    rw [validateStatePr] at hval
    obtain ⟨tc, ic, _, _, hl⟩ := statePhase_lookup fetch tEnv iEnv ids [] ms id hval hmem
    exact ⟨lowstateDiff tc ic, hl⟩

/-- Claim C4 (witness): a single minion whose pillar is identical in both
environments is omitted from the pillar report, while the state report
keys it with its (empty) set diff. -/
theorem host_omission_rule_wit :
    (∃ ml, PValue.dict [] = PValue.dict ml ∧ dlookup ml "h" = none) ∧
    (∃ d, dlookup [("h", lowstateDiff ["s1"] ["s1"])] "h" = some d) :=
  ⟨host_omission_rule.1 ["h"] (fun _ _ => .ok (.dict [("x", .str "1")])) "t" "i"
      (.dict []) "h" (.dict [("x", .str "1")]) (.dict [("x", .str "1")])
      (.dict [("x", .str "unchanged")])
      (by simp [validatePillarPr, fetchPhase, dinsert, determinePillarChanges, loopTarget,
        entryResult, loopIncoming, dlookup, leafCompare, removeUnchanged, pruneList])
      (by simp) rfl rfl
      (by simp [determinePillarChanges, loopTarget, entryResult, loopIncoming, dlookup,
        leafCompare])
      (by simp [removeUnchanged, pruneList]),
   host_omission_rule.2 ["h"] (fun _ _ => .ok ["s1"]) "t" "i"
      [("h", lowstateDiff ["s1"] ["s1"])] "h"
      (by simp [validateStatePr, statePhase, dinsert]) (by simp)⟩

/-- Claim C9 (counterexample): for target `{}` and incoming
`{p: {q: {r: "1"}}}`, the branch level at path `p.q` carries the key
`r` in the incoming tree, but the un-pruned diff result has no branch
at that path at all (it holds the flat marker `"added"`), so the result
does not contain the union of the input keys at every level. -/
theorem diff_keys_union_depth_cex :
    determinePillarChanges (.dict [])
        (.dict [("p", .dict [("q", .dict [("r", .str "1")])])]) =
      .ok (.dict [("p", .dict [("q", .str "added")])]) ∧
    keysAt (.dict [("p", .dict [("q", .str "added")])]) ["p", "q"] = none ∧
    keysAtD (.dict [("p", .dict [("q", .dict [("r", .str "1")])])]) ["p", "q"] = ["r"] := by
  refine ⟨?_, ?_, ?_⟩
  · simp [determinePillarChanges, loopTarget, loopIncoming, dlookup, addEntry]
  · simp [keysAt, dlookup]
  · simp [keysAtD, keysAt, dlookup, keysOf]

/-- Claim C9 (amended): whenever the diff succeeds, every branch level of the
result carries exactly the union of the field names present in target
and incoming at that level (a side at which the path leads to no branch
contributes no keys).  Beneath a field present only in incoming the
result stores flat `"added"` markers, so no deeper branch levels exist
there, and a type-mismatched pair makes the diff raise instead of
producing a result. -/
theorem diff_branch_keys_union : ∀ (p : List String) (t i c : PValue),
    determinePillarChanges t i = .ok c → ∀ ks, keysAt c p = some ks →
    ∀ k, k ∈ ks ↔ (k ∈ keysAtD t p ∨ k ∈ keysAtD i p) := by
  intro p
  induction p with
  | nil =>
      intro t i c h ks hks k
      obtain ⟨tl, il, c1, rfl, rfl, hlt, rfl⟩ := determinePillarChanges_ok_shape _ _ _ h
      have hks2 : ks = keysOf (c1 ++ loopIncoming tl il) := by
        simp [keysAt] at hks
        exact hks.symm
      subst hks2
      rw [keysOf_append, List.mem_append, loopTarget_keys tl (.dict il) c1 hlt,
        mem_keysOf_loopIncoming]
      have hiff := dlookup_isSome_iff_mem tl k
      simp only [keysAtD, keysAt, Option.getD_some]
      tauto
  | cons q p' ihp =>
      intro t i c h ks hks k
      obtain ⟨tl, il, c1, rfl, rfl, hlt, rfl⟩ := determinePillarChanges_ok_shape _ _ _ h
      simp only [keysAt] at hks
      cases hdl : dlookup (c1 ++ loopIncoming tl il) q with
      | none => rw [hdl] at hks; simp at hks
      | some v =>
          rw [hdl] at hks
          simp only [] at hks
          rw [dlookup_append] at hdl
          cases hc1q : dlookup c1 q with
          | some r =>
              rw [hc1q] at hdl
              simp at hdl
              subst hdl
              have hin : q ∈ keysOf tl := by
                have hs : (dlookup c1 q).isSome := by simp [hc1q]
                rw [dlookup_isSome_iff_mem, loopTarget_keys tl (.dict il) c1 hlt] at hs
                exact hs
              obtain ⟨tv, htv⟩ := Option.isSome_iff_exists.mp
                ((dlookup_isSome_iff_mem tl q).mpr hin)
              obtain ⟨r', hent, hc1l⟩ := loopTarget_dlookup_some tl (.dict il) c1 q tv hlt htv
              have hrv : r = r' := by rw [hc1q] at hc1l; simpa using hc1l
              subst hrv
              cases hil : dlookup il q with
              | none =>
                  have hr2 : r = PValue.str "removed" := by
                    have hh := hent
                    simp [entryResult, hil] at hh
                    exact hh.symm
                  subst hr2
                  simp [keysAt] at hks
              | some iv =>
                  cases tv with
                  | str s =>
                      have hr2 : r = PValue.str (leafCompare s iv) := by
                        have hh := hent
                        simp [entryResult, hil] at hh
                        exact hh.symm
                      subst hr2
                      simp [keysAt] at hks
                  | dict tdl =>
                      have hent2 : determinePillarChanges (.dict tdl) iv = .ok r := by
                        simpa [entryResult, hil] using hent
                      rw [ihp (.dict tdl) iv r hent2 ks hks k]
                      simp only [keysAtD, keysAt, htv, hil]
          | none =>
              rw [hc1q] at hdl
              simp only [] at hdl
              rw [loopIncoming_dlookup] at hdl
              by_cases hts : (dlookup tl q).isSome
              · rw [if_pos hts] at hdl; exact absurd hdl (by simp)
              · rw [if_neg hts] at hdl
                have htlq : dlookup tl q = none := by
                  cases hx : dlookup tl q with
                  | none => rfl
                  | some w => rw [hx] at hts; exact absurd (by simp) hts
                cases hil : dlookup il q with
                | none => rw [hil] at hdl; exact absurd hdl (by simp)
                | some iv =>
                    rw [hil] at hdl
                    simp at hdl
                    cases iv with
                    | str s =>
                        have hv : v = PValue.str "added" := by
                          rw [← hdl]; simp [addEntry]
                        subst hv
                        simp [keysAt] at hks
                    | dict idl =>
                        have hv : v = PValue.dict
                            (idl.map (fun pr => (pr.1, PValue.str "added"))) := by
                          rw [← hdl]; simp [addEntry]
                        subst hv
                        cases p' with
                        | nil =>
                            have hks2 : ks = keysOf idl := by
                              simp [keysAt] at hks
                              rw [← hks]
                              simp [keysOf]
                            subst hks2
                            simp [keysAtD, keysAt, htlq, hil]
                        | cons q' p'' =>
                            exfalso
                            simp only [keysAt] at hks
                            rw [dlookup_map_added] at hks
                            cases hq' : dlookup idl q' with
                            | none => rw [hq'] at hks; simp at hks
                            | some w => rw [hq'] at hks; simp [keysAt] at hks

/-- Claim C9 (witness): concrete instance of `diff_branch_keys_union` at the
top level of a one-key-per-side pair. -/
theorem diff_branch_keys_union_wit :
    "a" ∈ ["a", "b"] ↔
      ("a" ∈ keysAtD (.dict [("a", .str "1")]) [] ∨
       "a" ∈ keysAtD (.dict [("b", .str "2")]) []) :=
  diff_branch_keys_union [] (.dict [("a", .str "1")]) (.dict [("b", .str "2")])
    (.dict [("a", .str "removed"), ("b", .str "added")])
    (by simp [determinePillarChanges, loopTarget, entryResult, loopIncoming, dlookup, addEntry])
    ["a", "b"] (by simp [keysAt, keysOf]) "a"
